import Mathlib

/-!
Verification development for the EasyBuild dependency-resolution core (the
robot) and two Intel easyblocks (imkl, impi).

The dependency resolver is exercised by easybuild/test/robot.py; the resolver
itself (easybuild.build.resolveDependencies) is not part of the source tree,
so it is modelled here from the specification (fixed-point expansion plus
topological drain, with a module-availability Oracle and a recipe Locator as
external collaborators).  The imkl and impi easyblocks are embedded directly
from the source files.
-/

set_option maxRecDepth 4000

/-! ## Data model of the resolver -/

/-- Modelled from the spec: a DependencyReference, the lookup key
(name, version) used by the resolver; the code holding the corresponding
Python tuples (easybuild.build) is missing from the source tree. -/
structure DepRef where
  name : String
  version : String
deriving DecidableEq, Repr

/-- Modelled from the spec: a PackageDescriptor with its (name, version)
identity and its remaining ordered dependency list. -/
structure Descriptor where
  name : String
  version : String
  dependencies : List DepRef
deriving DecidableEq, Repr

/-- The (name, version) identity of a descriptor. -/
def Descriptor.key (d : Descriptor) : DepRef := ⟨d.name, d.version⟩

/-- Modelled from the spec: the structured failure cases of resolution.
MissingRecipeError carries the unresolvable reference; the cyclic error
carries one representative blocked descriptor.  fuelExhausted is an artifact
of the shallow embedding: the fixed-point loop is given explicit fuel. -/
inductive ResolveError where
  | missingRecipe (name version : String)
  | cyclic (name version : String)
  | fuelExhausted
deriving DecidableEq, Repr

/-- The module-availability Oracle collaborator. -/
abbrev Oracle := DepRef → Bool

/-- The recipe Locator collaborator: given a search path and a reference,
return the located recipe dependency list, or none. -/
abbrev Locator := String → DepRef → Option (List DepRef)

/-- Modelled from the spec: Locator access mediated by the optional search
path; when the search path is absent the reference is treated as not found
with no lookup attempted. -/
def lookupRecipe (locator : Locator) (searchPath : Option String) (r : DepRef) :
    Option (List DepRef) :=
  match searchPath with
  | none => none
  | some p => locator p r

/-- Modelled from the spec: the expansion step over one dependency list.
Oracle-available references are removed; already-seen references are kept
in place; unseen references are looked up, and a hit adds a fresh
descriptor while a miss aborts with MissingRecipeError.  Returns the kept
dependency list, the grown seen set, and the freshly located descriptors. -/
def expandDeps (oracle : Oracle) (lookup : DepRef → Option (List DepRef)) :
    List DepRef → List DepRef →
    Except ResolveError (List DepRef × List DepRef × List Descriptor)
  | [], seen => .ok ([], seen, [])
  | r :: rs, seen =>
    if oracle r then
      expandDeps oracle lookup rs seen
    else if r ∈ seen then
      match expandDeps oracle lookup rs seen with
      | .error e => .error e
      | .ok (kept, seen', new) => .ok (r :: kept, seen', new)
    else
      match lookup r with
      | none => .error (.missingRecipe r.name r.version)
      | some deps =>
        match expandDeps oracle lookup rs (seen ++ [r]) with
        | .error e => .error e
        | .ok (kept, seen', new) => .ok (r :: kept, seen', ⟨r.name, r.version, deps⟩ :: new)

/-- Modelled from the spec: one expansion pass over the pending snapshot,
threading the seen set left to right and collecting newly located
descriptors in discovery order. -/
def expandPass (oracle : Oracle) (lookup : DepRef → Option (List DepRef)) :
    List Descriptor → List DepRef →
    Except ResolveError (List Descriptor × List DepRef × List Descriptor)
  | [], seen => .ok ([], seen, [])
  | d :: ds, seen =>
    match expandDeps oracle lookup d.dependencies seen with
    | .error e => .error e
    | .ok (kept, seen', new₁) =>
      match expandPass oracle lookup ds seen' with
      | .error e => .error e
      | .ok (ds', seen'', new₂) =>
        .ok ({ d with dependencies := kept } :: ds', seen'', new₁ ++ new₂)

/-- Remove the given identities from the dependency list of a descriptor
(they are satisfied by descriptors already drained into the order). -/
def removeKeys (keys : List DepRef) (d : Descriptor) : Descriptor :=
  { d with dependencies := d.dependencies.filter (fun r => decide (¬ r ∈ keys)) }

/-- Modelled from the spec: one drain pass; every pending descriptor with an
empty dependency list is emitted (stable, in pending order) and its identity
is removed as a blocker from every remaining pending descriptor. -/
def drainOnce (pending : List Descriptor) : List Descriptor × List Descriptor :=
  let drained := pending.filter (fun d => d.dependencies.isEmpty)
  let keys := drained.map Descriptor.key
  (drained, (pending.filter (fun d => !d.dependencies.isEmpty)).map (removeKeys keys))

/-- Modelled from the spec: the resolution state owned by one run. -/
structure RState where
  resolved : List Descriptor
  pending : List Descriptor
  seen : List DepRef
deriving DecidableEq, Repr

/-- Modelled from the spec: one full expansion-plus-drain pass. -/
def step (oracle : Oracle) (lookup : DepRef → Option (List DepRef)) (s : RState) :
    Except ResolveError RState :=
  match expandPass oracle lookup s.pending s.seen with
  | .error e => .error e
  | .ok (upd, seen', new) =>
    let dr := drainOnce (upd ++ new)
    .ok ⟨s.resolved ++ dr.1, dr.2, seen'⟩

/-- Modelled from the spec: repeat expansion-plus-drain passes until pending
is empty; a pass that changes nothing while pending is nonempty aborts with
the cyclic error naming the first blocked descriptor. -/
def resolveLoop (oracle : Oracle) (lookup : DepRef → Option (List DepRef)) :
    Nat → RState → Except ResolveError (List Descriptor)
  | 0, s => if s.pending.isEmpty then .ok s.resolved else .error .fuelExhausted
  | n + 1, s =>
    if s.pending.isEmpty then .ok s.resolved
    else
      match step oracle lookup s with
      | .error e => .error e
      | .ok s' =>
        if s' = s then
          match s.pending with
          | [] => .ok s.resolved
          | d :: _ => .error (.cyclic d.name d.version)
        else resolveLoop oracle lookup n s'

/-- Modelled from the spec: the resolver contract.  Pending is seeded with
the top-level descriptors and the seen set with their identities; the result
is the drained order, or a structured error.  The missing source code is
easybuild.build.resolveDependencies, absent from the source tree. -/
def resolve (fuel : Nat) (oracle : Oracle) (locator : Locator)
    (searchPath : Option String) (tops : List Descriptor) :
    Except ResolveError (List Descriptor) :=
  resolveLoop oracle (lookupRecipe locator searchPath) fuel
    ⟨[], tops, tops.map Descriptor.key⟩

deriving instance DecidableEq for Except

/-! ## Version comparison (LooseVersion on dotted numeric components) -/

/-- Split a character list on the dot separator. -/
def splitDots : List Char → List (List Char)
  | [] => [[]]
  | c :: cs =>
    if c = '.' then [] :: splitDots cs
    else
      match splitDots cs with
      | [] => [[c]]
      | g :: gs => (c :: g) :: gs

/-- Decimal value of one version component. -/
def compToNat (g : List Char) : Nat :=
  g.foldl (fun acc c => acc * 10 + (c.toNat - 48)) 0

/-- Parse a dotted numeric version string into its component list, the
shape LooseVersion gives to the version strings compared in the imkl and
impi easyblocks. -/
def parseVer (s : String) : List Nat :=
  (splitDots s.data).map compToNat

/-- Lexicographic strict order on component lists, matching Python list
comparison used by LooseVersion. -/
def verLt : List Nat → List Nat → Bool
  | [], [] => false
  | [], _ :: _ => true
  | _ :: _, [] => false
  | a :: as, b :: bs => if a < b then true else if b < a then false else verLt as bs

/-- Version at-least comparison. -/
def verGe (a b : List Nat) : Bool := !(verLt a b)

/-- The structured EasyBuild failure raised by easyblocks. -/
structure EasyBuildError where
  msg : String
deriving DecidableEq, Repr

/-! ## EB_imkl (easyblocks/i/imkl.py) -/

namespace EB_imkl

/-- The module-environment guess dictionary manipulated by
make_module_req_guess; one field per environment variable the easyblock
touches. -/
structure Guesses where
  PATH : List String
  LD_LIBRARY_PATH : List String
  LIBRARY_PATH : List String
  MANPATH : List String
  CPATH : List String
  PKG_CONFIG_PATH : List String
  MIC_LD_LIBRARY_PATH : List String
deriving DecidableEq, Repr

/-- Embedding of EB_imkl.make_module_req_guess (imkl.py lines 140-191).
base stands for the guess dictionary returned by the superclass. -/
def make_module_req_guess (version : String) (m32 : Bool) (base : Guesses) :
    Except EasyBuildError Guesses :=
  let ver := parseVer version
  if verGe ver (parseVer "10.3") then
    if m32 then
      .error ⟨"32-bit not supported yet for IMKL v" ++ version ++ " (>= 10.3)"⟩
    else
      if verGe ver (parseVer "2021") then
        let compiler_subdir := "compiler/" ++ version ++ "/linux/compiler/lib/intel64_lin"
        let mkl_subdir := "mkl/" ++ version
        let library_path := [compiler_subdir, mkl_subdir ++ "/lib/intel64"]
        .ok { base with
          PATH := [], LD_LIBRARY_PATH := library_path, LIBRARY_PATH := library_path,
          CPATH := [mkl_subdir ++ "/include", mkl_subdir ++ "/include/fftw"],
          PKG_CONFIG_PATH := [mkl_subdir ++ "/tools/pkgconfig"] }
      else
        let g1 := { base with MANPATH := ["man", "man/en_US"] }
        let g2 :=
          if verGe ver (parseVer "11.0") then
            if verGe ver (parseVer "11.3") then
              { g1 with MIC_LD_LIBRARY_PATH := ["lib/intel64_lin_mic", "mkl/lib/mic"] }
            else if verGe ver (parseVer "11.1") then
              { g1 with MIC_LD_LIBRARY_PATH := ["lib/mic", "mkl/lib/mic"] }
            else
              { g1 with MIC_LD_LIBRARY_PATH := ["compiler/lib/mic", "mkl/lib/mic"] }
          else g1
        let library_path := ["lib/intel64", "mkl/lib/intel64"]
        .ok { g2 with
          PATH := [], LD_LIBRARY_PATH := library_path, LIBRARY_PATH := library_path,
          CPATH := ["mkl/include", "mkl/include/fftw"],
          PKG_CONFIG_PATH := ["mkl/bin/pkgconfig"] }
  else
    if m32 then
      .ok { base with
        PATH := ["bin", "bin/ia32", "tbb/bin/ia32"],
        LD_LIBRARY_PATH := ["lib", "lib/32"], LIBRARY_PATH := ["lib", "lib/32"],
        MANPATH := ["man", "share/man", "man/en_US"] }
    else
      .ok { base with
        PATH := ["bin", "bin/intel64", "tbb/bin/em64t"],
        LD_LIBRARY_PATH := ["lib", "lib/em64t"], LIBRARY_PATH := ["lib", "lib/em64t"],
        MANPATH := ["man", "share/man", "man/en_US"] }

/-- The custom sanity-check path sets handed to the superclass. -/
structure CustomPaths where
  files : List String
  dirs : List String
deriving DecidableEq, Repr

/-- The interface-library accumulation at the top of
EB_imkl.sanity_check_step (imkl.py lines 381-417): the base library list,
extended with FFTW interface and cdft libraries when interfaces are
requested; fails when no supported compiler is found. -/
def sanity_check_libs (version : String) (m32 interfaces : Bool)
    (cdftlibs : List String) (iccRoot intelCompilersRoot pgiRoot gccRoot : Bool)
    (shlib_ext : String) : Except EasyBuildError (List String) :=
  let ver := parseVer version
  let libs := ["libmkl_core." ++ shlib_ext, "libmkl_gnu_thread." ++ shlib_ext,
               "libmkl_intel_thread." ++ shlib_ext, "libmkl_sequential." ++ shlib_ext]
  let pics := ["", "_pic"]
  if interfaces then
    let compsuffE : Except EasyBuildError String :=
      if iccRoot || intelCompilersRoot then .ok "_intel"
      else if pgiRoot then .ok "_pgi"
      else if gccRoot then .ok "_gnu"
      else .error ⟨"Not using Intel/GCC/PGI, unknown compiler suffix for FFTW libraries."⟩
    match compsuffE with
    | .error e => .error e
    | .ok compsuff =>
      let precs := if verLt ver (parseVer "11") then [""] else ["_double", "_single"]
      let fftw_vers :=
        (["c", "f"].flatMap (fun x => precs.map (fun prec => "2x" ++ x ++ prec)))
          ++ ["3xc", "3xf"]
      let libs1 := libs ++ fftw_vers.flatMap
        (fun fftwver => pics.map (fun pic => "libfftw" ++ fftwver ++ compsuff ++ pic ++ ".a"))
      if cdftlibs.isEmpty then .ok libs1
      else
        let fftw_cdft_vers := ["2x_cdft_DOUBLE"]
          ++ (if !m32 then ["2x_cdft_SINGLE"] else [])
          ++ (if verGe ver (parseVer "10.3") then ["3x_cdft"] else [])
        let bits :=
          if verGe ver (parseVer "11.0.2") then
            ["_lp64"] ++ (if !m32 then ["_ilp64"] else [])
          else [""]
        .ok (libs1 ++ fftw_cdft_vers.flatMap (fun v => bits.flatMap
          (fun b => pics.map (fun p => "libfftw" ++ v ++ b ++ p ++ ".a"))))
  else .ok libs

/-- Embedding of EB_imkl.sanity_check_step (imkl.py lines 374-469).  The
compiler-detection calls (get_software_root) become boolean inputs; the
message texts are paraphrased. -/
def sanity_check_step (version : String) (m32 interfaces : Bool)
    (cdftlibs : List String) (iccRoot intelCompilersRoot pgiRoot gccRoot : Bool)
    (shlib_ext : String) : Except EasyBuildError CustomPaths :=
  let ver := parseVer version
  let extralib1 := fun (suff : String) => "libmkl_blacs_intelmpi_" ++ suff ++ "." ++ shlib_ext
  let extralib2 := fun (suff : String) => "libmkl_scalapack_" ++ suff ++ "." ++ shlib_ext
  let extralibsApplied :=
    ["lp64", "ilp64"].map extralib1 ++ ["lp64", "ilp64"].map extralib2
  match sanity_check_libs version m32 interfaces cdftlibs iccRoot intelCompilersRoot
      pgiRoot gccRoot shlib_ext with
  | .error e => .error e
  | .ok libs2 =>
    if verGe ver (parseVer "10.3") && m32 then
      .error ⟨"Sanity check for 32-bit not implemented yet for IMKL v" ++ version ++ " (>= 10.3)"⟩
    else if verGe ver (parseVer "2021") then
      let basedir := "mkl/" ++ version
      let mkldirs := [basedir ++ "/bin", basedir ++ "/lib/intel64", basedir ++ "/include"]
      let libs3 := libs2 ++ extralibsApplied
      let mklfiles := [basedir ++ "/lib/intel64/libmkl_core." ++ shlib_ext,
                       basedir ++ "/include/mkl.h"]
        ++ libs3.map (fun lib => basedir ++ "/lib/intel64/" ++ lib)
      .ok ⟨mklfiles, mkldirs⟩
    else if verGe ver (parseVer "10.3") then
      let mkldirs0 := ["bin", "mkl/bin", "mkl/lib/intel64", "mkl/include"]
      let mkldirs1 := mkldirs0 ++ (if verLt ver (parseVer "11.3") then ["mkl/bin/intel64"] else [])
      let libs3 := libs2 ++ extralibsApplied
      let mklfiles := ["mkl/lib/intel64/libmkl." ++ shlib_ext, "mkl/include/mkl.h"]
        ++ libs3.map (fun lib => "mkl/lib/intel64/" ++ lib)
      let mkldirs :=
        if verGe ver (parseVer "10.3.4") && verLt ver (parseVer "11.1") then
          mkldirs1 ++ ["compiler/lib/intel64"]
        else if verGe ver (parseVer "2017.0.0") then
          mkldirs1 ++ ["lib/intel64_lin"]
        else mkldirs1 ++ ["lib/intel64"]
      .ok ⟨mklfiles, mkldirs⟩
    else
      if m32 then
        .ok ⟨["lib/32/libmkl." ++ shlib_ext, "include/mkl.h"]
              ++ libs2.map (fun lib => "lib/32/" ++ lib),
             ["lib/32", "include/32", "interfaces"]⟩
      else
        let libs3 := libs2 ++ extralibsApplied
        .ok ⟨["lib/em64t/libmkl." ++ shlib_ext, "include/mkl.h"]
              ++ libs3.map (fun lib => "lib/em64t/" ++ lib),
             ["lib/em64t", "include/em64t", "interfaces"]⟩

end EB_imkl

/-! ## EB_impi (easyblocks/i/impi.py) -/

namespace EB_impi

/-- The externally visible actions install_step performs, in order. -/
inductive Action where
  | superInstall (withActivationMap : Bool)
  | moveAfterInstall
  | customInstall
  | extractLibfabric
  | runShellCmd (cmd : String)
deriving DecidableEq, Repr

/-- The base installation actions of EB_impi.install_step (impi.py lines
77-127): the version-gated choice between the standard silent installer
(with the optional move afterwards) and the pre-4.0.1 custom install.sh
procedure. -/
def preActions (impiver : List Nat) : List Action :=
  if verGe impiver (parseVer "4.0.1") then
    let acts := [Action.superInstall (verLt impiver (parseVer "4.1.1"))]
    if impiver = parseVer "4.1.1.036" || verGe impiver (parseVer "5.0.1.035") then
      acts ++ [Action.moveAfterInstall]
    else acts
  else [Action.customInstall]

/-- Embedding of EB_impi.install_step (impi.py lines 71-155).  File-system
and subprocess effects become an emitted action list; srcTgzExists models
os.path.exists on the libfabric src.tgz archive. -/
def install_step (version : String) (libfabric_rebuild ofi_internal : Bool)
    (srcTgzExists : Bool) (parallel : Nat) (libfabric_configopts installdir : String) :
    Except EasyBuildError (List Action) :=
  let impiver := parseVer version
  let pre := preActions impiver
  if verGe impiver (parseVer "2019") && libfabric_rebuild then
    if ofi_internal then
      if srcTgzExists then
        let make := if parallel ≠ 0 then "make -j " ++ toString parallel else "make"
        .ok (pre ++ [Action.extractLibfabric,
          Action.runShellCmd ("./configure --prefix=" ++ installdir ++ "/intel64/libfabric "
            ++ libfabric_configopts),
          Action.runShellCmd make, Action.runShellCmd "make install"])
      else .ok pre
    else .error ⟨"Rebuild of libfabric is requested, but ofi_internal is set to False."⟩
  else .ok pre

end EB_impi
/-! ## Concrete collaborators used by example instances -/

/-- An Oracle with no modules available (the MockModule of robot.py). -/
def noOracle : Oracle := fun _ => false

/-- A Locator that finds nothing. -/
def noLocator : Locator := fun _ _ => none

/-- A Locator with recipes a -> [b], b -> [a]: every reference occurring in
the cycle scenario is locatable. -/
def cycLocator : Locator := fun _ r =>
  if r.name = "a" then some [⟨"b", "1"⟩]
  else if r.name = "b" then some [⟨"a", "1"⟩]
  else none

/-- A Locator with recipes B -> [C] and C -> []. -/
def chainLocator : Locator := fun _ r =>
  if r.name = "B" then some [⟨"C", "1"⟩]
  else if r.name = "C" then some []
  else none

/-- A Locator with recipes B -> [D], C -> [D], D -> []. -/
def diamondLocator : Locator := fun _ r =>
  if r.name = "B" then some [⟨"D", "1"⟩]
  else if r.name = "C" then some [⟨"D", "1"⟩]
  else if r.name = "D" then some []
  else none

/-! ## Small loop lemmas -/

theorem resolveLoop_nil_pending (oracle : Oracle) (lookup : DepRef → Option (List DepRef))
    (n : Nat) (res : List Descriptor) (seen : List DepRef) :
    resolveLoop oracle lookup n ⟨res, [], seen⟩ = .ok res := by
  cases n <;> simp [resolveLoop]

/-- Claim C4: resolving a single top-level descriptor with an empty
dependency list returns exactly that one descriptor unchanged, for any
Oracle, Locator and search path (fuel at least one pass). -/
theorem resolve_no_dep_passthrough (fuel : Nat) (oracle : Oracle) (locator : Locator)
    (sp : Option String) (name version : String) (hfuel : 0 < fuel) :
    resolve fuel oracle locator sp [⟨name, version, []⟩] = .ok [⟨name, version, []⟩] := by
  obtain ⟨n, rfl⟩ : ∃ n, fuel = n + 1 := ⟨fuel - 1, by omega⟩
  simp [resolve, resolveLoop, step, expandPass, expandDeps, drainOnce, removeKeys,
    resolveLoop_nil_pending]

theorem resolve_no_dep_passthrough_witness :
    resolve 3 noOracle noLocator none [⟨"name", "version", []⟩]
      = .ok [⟨"name", "version", []⟩] :=
  resolve_no_dep_passthrough 3 noOracle noLocator none "name" "version" (by decide)

/-- Claim C8: resolution is a deterministic function of its inputs: two
calls with the same descriptor list and extensionally equal Oracle and
Locator responses return identical results. -/
theorem resolve_deterministic (fuel : Nat) (o1 o2 : Oracle) (l1 l2 : Locator)
    (sp : Option String) (tops : List Descriptor)
    (ho : ∀ r, o1 r = o2 r) (hl : ∀ p r, l1 p r = l2 p r) :
    resolve fuel o1 l1 sp tops = resolve fuel o2 l2 sp tops := by
  rw [funext ho, funext (fun p => funext (hl p))]

theorem resolve_deterministic_witness :
    resolve 10 noOracle chainLocator (some "p") [⟨"A", "1", [⟨"B", "1"⟩]⟩]
      = resolve 10 (fun _ => false) (fun p r => chainLocator p r) (some "p")
          [⟨"A", "1", [⟨"B", "1"⟩]⟩] :=
  resolve_deterministic 10 noOracle (fun _ => false) chainLocator
    (fun p r => chainLocator p r) (some "p") [⟨"A", "1", [⟨"B", "1"⟩]⟩]
    (fun _ => rfl) (fun _ _ => rfl)

/-- Claim C1 counterexample: an input in which every dependency reference
is locatable (a depends on b, b depends on a, both found by the Locator,
none Oracle satisfied) does not resolve to an order; the run aborts with
the cyclic error, refuting the claim as stated. -/
theorem resolve_locatable_cycle_fails :
    noOracle ⟨"a", "1"⟩ = false ∧ noOracle ⟨"b", "1"⟩ = false ∧
    lookupRecipe cycLocator (some "p") ⟨"a", "1"⟩ = some [⟨"b", "1"⟩] ∧
    lookupRecipe cycLocator (some "p") ⟨"b", "1"⟩ = some [⟨"a", "1"⟩] ∧
    resolve 4 noOracle cycLocator (some "p") [⟨"a", "1", [⟨"b", "1"⟩]⟩]
      = .error (.cyclic "a" "1") := by decide

/-- Claim C2 counterexample: first, a reference that is neither Oracle satisfied
nor found by the Locator does not make the run fail when a top-level sibling
descriptor carries its identity; second, with two such references the error
names only the first one, not the other exact (name, version). -/
theorem missing_dep_satisfied_by_sibling :
    noOracle ⟨"gzip", "1.4"⟩ = false ∧
    lookupRecipe noLocator none ⟨"gzip", "1.4"⟩ = none ∧
    resolve 4 noOracle noLocator none
        [⟨"name", "version", [⟨"gzip", "1.4"⟩]⟩, ⟨"gzip", "1.4", []⟩]
      = .ok [⟨"gzip", "1.4", []⟩, ⟨"name", "version", []⟩] ∧
    resolve 4 noOracle noLocator none [⟨"a", "1", [⟨"x", "1"⟩, ⟨"y", "1"⟩]⟩]
      = .error (.missingRecipe "x" "1") := by decide

/-- Claim C3 counterexample: an input listing the same descriptor twice at
top level is emitted twice, so its (name, version) identity appears twice
in the returned order, refuting the claim as stated for every input. -/
theorem duplicate_tops_duplicate_output :
    resolve 3 noOracle noLocator none [⟨"a", "1", []⟩, ⟨"a", "1", []⟩]
      = .ok [⟨"a", "1", []⟩, ⟨"a", "1", []⟩] ∧
    ¬ ([(⟨"a", "1", []⟩ : Descriptor), ⟨"a", "1", []⟩].map Descriptor.key).Nodup := by
  refine ⟨by decide, by decide⟩

/-- Claim C9: for every imkl configuration with version at least 10.3 and
the m32 option enabled, make_module_req_guess and sanity_check_step both
return an EasyBuildError instead of path guesses. -/
theorem imkl_m32_v103_errors (version : String) (base : EB_imkl.Guesses)
    (interfaces : Bool) (cdftlibs : List String)
    (icc intelc pgi gcc : Bool) (ext : String)
    (hver : verGe (parseVer version) (parseVer "10.3") = true) :
    (∃ e, EB_imkl.make_module_req_guess version true base = .error e) ∧
    (∃ e, EB_imkl.sanity_check_step version true interfaces cdftlibs icc intelc pgi gcc ext
        = .error e) := by
  constructor
  · refine ⟨⟨"32-bit not supported yet for IMKL v" ++ version ++ " (>= 10.3)"⟩, ?_⟩
    simp [EB_imkl.make_module_req_guess, hver]
  · cases hL : EB_imkl.sanity_check_libs version true interfaces cdftlibs icc intelc pgi gcc ext with
    | error e => exact ⟨e, by simp [EB_imkl.sanity_check_step, hL]⟩
    | ok libs2 =>
      refine ⟨⟨"Sanity check for 32-bit not implemented yet for IMKL v" ++ version ++ " (>= 10.3)"⟩, ?_⟩
      simp [EB_imkl.sanity_check_step, hL, hver]

theorem imkl_m32_v103_errors_witness :
    (∃ e, EB_imkl.make_module_req_guess "2021.4.0" true ⟨[], [], [], [], [], [], []⟩ = .error e) ∧
    (∃ e, EB_imkl.sanity_check_step "2021.4.0" true true [] false false false false "so"
        = .error e) :=
  imkl_m32_v103_errors "2021.4.0" ⟨[], [], [], [], [], [], []⟩ true [] false false false false
    "so" (by decide)

theorem impi_preActions_no_extract (v : List Nat) :
    EB_impi.Action.extractLibfabric ∉ EB_impi.preActions v := by
  unfold EB_impi.preActions
  split
  · split <;> simp
  · simp

/-- Claim C10: for impi version at least 2019, install_step fails with an
EasyBuildError when libfabric_rebuild is enabled but ofi_internal is
disabled; with ofi_internal enabled and the libfabric source archive
absent, the step succeeds and the rebuild is skipped. -/
theorem impi_libfabric_rebuild (version : String) (src : Bool) (par : Nat)
    (copts inst : String)
    (hver : verGe (parseVer version) (parseVer "2019") = true) :
    (∃ e, EB_impi.install_step version true false src par copts inst = .error e) ∧
    (∃ acts, EB_impi.install_step version true true false par copts inst = .ok acts ∧
       EB_impi.Action.extractLibfabric ∉ acts) := by
  constructor
  · exact ⟨⟨"Rebuild of libfabric is requested, but ofi_internal is set to False."⟩,
      by simp [EB_impi.install_step, hver]⟩
  · exact ⟨EB_impi.preActions (parseVer version),
      by simp [EB_impi.install_step, hver], impi_preActions_no_extract _⟩

theorem impi_libfabric_rebuild_witness :
    (∃ e, EB_impi.install_step "2019.7.217" true false true 4 "" "/opt/impi" = .error e) ∧
    (∃ acts, EB_impi.install_step "2019.7.217" true true false 4 "" "/opt/impi" = .ok acts ∧
       EB_impi.Action.extractLibfabric ∉ acts) :=
  impi_libfabric_rebuild "2019.7.217" true 4 "" "/opt/impi" (by decide)

/-! ## Properties of the expansion step -/

theorem key_mk_self (r : DepRef) (ds : List DepRef) :
    (⟨r.name, r.version, ds⟩ : Descriptor).key = r := rfl

theorem expandDeps_seen (oracle : Oracle) (lookup : DepRef → Option (List DepRef)) :
    ∀ (deps seen : List DepRef) (kept seen' : List DepRef) (new : List Descriptor),
      expandDeps oracle lookup deps seen = .ok (kept, seen', new) →
      seen' = seen ++ new.map Descriptor.key := by
  intro deps
  induction deps with
  | nil =>
    intro seen kept seen' new h
    simp [expandDeps] at h
    simp [h.2.1.symm, h.2.2.symm]
  | cons r rs ih =>
    intro seen kept seen' new h
    rw [expandDeps] at h
    split at h
    · exact ih _ _ _ _ h
    · split at h
      · split at h
        · exact Except.noConfusion h
        · next heq =>
          simp only [Except.ok.injEq, Prod.mk.injEq] at h
          obtain ⟨hk, hs, hn⟩ := h
          subst hk hs hn
          exact ih _ _ _ _ heq
      · split at h
        · exact Except.noConfusion h
        · split at h
          · exact Except.noConfusion h
          · next heq =>
            simp only [Except.ok.injEq, Prod.mk.injEq] at h
            obtain ⟨hk, hs, hn⟩ := h
            subst hk hs hn
            have := ih _ _ _ _ heq
            simp [this, Descriptor.key]

theorem expandDeps_kept_sub (oracle : Oracle) (lookup : DepRef → Option (List DepRef)) :
    ∀ (deps seen kept seen' : List DepRef) (new : List Descriptor),
      expandDeps oracle lookup deps seen = .ok (kept, seen', new) → kept ⊆ deps := by
  intro deps
  induction deps with
  | nil =>
    intro seen kept seen' new h
    simp [expandDeps] at h
    simp [h.1.symm]
  | cons r rs ih =>
    intro seen kept seen' new h
    rw [expandDeps] at h
    split at h
    · exact (ih _ _ _ _ h).trans (List.subset_cons_self r rs)
    · split at h
      · split at h
        · exact Except.noConfusion h
        · next heq =>
          simp only [Except.ok.injEq, Prod.mk.injEq] at h
          obtain ⟨hk, hs, hn⟩ := h
          subst hk hs hn
          exact List.cons_subset_cons r (ih _ _ _ _ heq)
      · split at h
        · exact Except.noConfusion h
        · split at h
          · exact Except.noConfusion h
          · next heq =>
            simp only [Except.ok.injEq, Prod.mk.injEq] at h
            obtain ⟨hk, hs, hn⟩ := h
            subst hk hs hn
            exact List.cons_subset_cons r (ih _ _ _ _ heq)

theorem expandDeps_mem_kept (oracle : Oracle) (lookup : DepRef → Option (List DepRef)) :
    ∀ (deps seen kept seen' : List DepRef) (new : List Descriptor),
      expandDeps oracle lookup deps seen = .ok (kept, seen', new) →
      ∀ r ∈ deps, r ∈ kept ∨ oracle r = true := by
  intro deps
  induction deps with
  | nil =>
    intro seen kept seen' new h r hr
    exact absurd hr (List.not_mem_nil r)
  | cons r rs ih =>
    intro seen kept seen' new h q hq
    rw [expandDeps] at h
    split at h
    · next hor =>
      rcases List.mem_cons.mp hq with rfl | hq'
      · exact Or.inr hor
      · exact ih _ _ _ _ h q hq'
    · split at h
      · split at h
        · exact Except.noConfusion h
        · next heq =>
          simp only [Except.ok.injEq, Prod.mk.injEq] at h
          obtain ⟨hk, hs, hn⟩ := h
          subst hk hs hn
          rcases List.mem_cons.mp hq with rfl | hq'
          · exact Or.inl (List.mem_cons_self _ _)
          · rcases ih _ _ _ _ heq q hq' with hin | hor
            · exact Or.inl (List.mem_cons_of_mem _ hin)
            · exact Or.inr hor
      · split at h
        · exact Except.noConfusion h
        · split at h
          · exact Except.noConfusion h
          · next heq =>
            simp only [Except.ok.injEq, Prod.mk.injEq] at h
            obtain ⟨hk, hs, hn⟩ := h
            subst hk hs hn
            rcases List.mem_cons.mp hq with rfl | hq'
            · exact Or.inl (List.mem_cons_self _ _)
            · rcases ih _ _ _ _ heq q hq' with hin | hor
              · exact Or.inl (List.mem_cons_of_mem _ hin)
              · exact Or.inr hor

theorem expandDeps_new_lookup (oracle : Oracle) (lookup : DepRef → Option (List DepRef)) :
    ∀ (deps seen kept seen' : List DepRef) (new : List Descriptor),
      expandDeps oracle lookup deps seen = .ok (kept, seen', new) →
      ∀ nd ∈ new, lookup nd.key = some nd.dependencies := by
  intro deps
  induction deps with
  | nil =>
    intro seen kept seen' new h nd hnd
    simp [expandDeps] at h
    rw [h.2.2] at hnd
    exact absurd hnd (List.not_mem_nil nd)
  | cons r rs ih =>
    intro seen kept seen' new h nd hnd
    rw [expandDeps] at h
    split at h
    · exact ih _ _ _ _ h nd hnd
    · split at h
      · split at h
        · exact Except.noConfusion h
        · next heq =>
          simp only [Except.ok.injEq, Prod.mk.injEq] at h
          obtain ⟨hk, hs, hn⟩ := h
          subst hk hs hn
          exact ih _ _ _ _ heq nd hnd
      · split at h
        · exact Except.noConfusion h
        · next hlk =>
          split at h
          · exact Except.noConfusion h
          · next heq =>
            simp only [Except.ok.injEq, Prod.mk.injEq] at h
            obtain ⟨hk, hs, hn⟩ := h
            subst hk hs hn
            rcases List.mem_cons.mp hnd with rfl | hnd'
            · simpa [Descriptor.key] using hlk
            · exact ih _ _ _ _ heq nd hnd'

theorem expandDeps_new_fresh (oracle : Oracle) (lookup : DepRef → Option (List DepRef)) :
    ∀ (deps seen kept seen' : List DepRef) (new : List Descriptor),
      expandDeps oracle lookup deps seen = .ok (kept, seen', new) →
      (new.map Descriptor.key).Nodup ∧ ∀ k ∈ new.map Descriptor.key, k ∉ seen := by
  intro deps
  induction deps with
  | nil =>
    intro seen kept seen' new h
    simp [expandDeps] at h
    simp [h.2.2]
  | cons r rs ih =>
    intro seen kept seen' new h
    rw [expandDeps] at h
    split at h
    · exact ih _ _ _ _ h
    · split at h
      · split at h
        · exact Except.noConfusion h
        · next heq =>
          simp only [Except.ok.injEq, Prod.mk.injEq] at h
          obtain ⟨hk, hs, hn⟩ := h
          subst hk hs hn
          exact ih _ _ _ _ heq
      · next hseen =>
        split at h
        · exact Except.noConfusion h
        · split at h
          · exact Except.noConfusion h
          · next heq =>
            simp only [Except.ok.injEq, Prod.mk.injEq] at h
            obtain ⟨hk, hs, hn⟩ := h
            subst hk hs hn
            obtain ⟨ihnd, ihfresh⟩ := ih _ _ _ _ heq
            constructor
            · simp only [List.map_cons, List.nodup_cons, key_mk_self]
              refine ⟨fun hmem => ?_, ihnd⟩
              have := ihfresh r hmem
              simp at this
            · intro k hkmem
              simp only [List.map_cons, List.mem_cons, key_mk_self] at hkmem
              rcases hkmem with rfl | hk'
              · exact hseen
              · have := ihfresh k hk'
                intro hks
                exact this (List.mem_append_left _ hks)

theorem expandDeps_error_shape (oracle : Oracle) (lookup : DepRef → Option (List DepRef)) :
    ∀ (deps seen : List DepRef) (e : ResolveError),
      expandDeps oracle lookup deps seen = .error e →
      ∃ n v, e = .missingRecipe n v ∧ oracle ⟨n, v⟩ = false ∧
        lookup ⟨n, v⟩ = none ∧ ⟨n, v⟩ ∉ seen := by
  intro deps
  induction deps with
  | nil =>
    intro seen e h
    simp [expandDeps] at h
  | cons r rs ih =>
    intro seen e h
    rw [expandDeps] at h
    split at h
    · exact ih _ _ h
    · next hor =>
      split at h
      · next hseen =>
        split at h
        · next heq =>
          cases h
          exact ih _ _ heq
        · exact Except.noConfusion h
      · next hseen =>
        split at h
        · next hlk =>
          cases h
          refine ⟨r.name, r.version, rfl, ?_, ?_, ?_⟩
          · have : (⟨r.name, r.version⟩ : DepRef) = r := rfl
            rw [this]
            exact Bool.not_eq_true _ ▸ (by simpa using hor)
          · have : (⟨r.name, r.version⟩ : DepRef) = r := rfl
            rw [this]; exact hlk
          · have : (⟨r.name, r.version⟩ : DepRef) = r := rfl
            rw [this]; exact hseen
        · split at h
          · next heq =>
            cases h
            obtain ⟨n, v, he, ho, hl, hs⟩ := ih _ _ heq
            refine ⟨n, v, he, ho, hl, fun hmem => hs (List.mem_append_left _ hmem)⟩
          · exact Except.noConfusion h

theorem expandDeps_must_fail (oracle : Oracle) (lookup : DepRef → Option (List DepRef)) :
    ∀ (deps seen : List DepRef) (r : DepRef),
      r ∈ deps → oracle r = false → lookup r = none → r ∉ seen →
      ∃ e, expandDeps oracle lookup deps seen = .error e := by
  intro deps
  induction deps with
  | nil =>
    intro seen r hr
    exact absurd hr (List.not_mem_nil r)
  | cons q qs ih =>
    intro seen r hr hor hlk hseen
    rw [expandDeps]
    split
    · next hoq =>
      rcases List.mem_cons.mp hr with rfl | hr'
      · rw [hor] at hoq; exact Bool.noConfusion hoq
      · exact ih _ _ hr' hor hlk hseen
    · split
      · next hqseen =>
        have hr' : r ∈ qs := by
          rcases List.mem_cons.mp hr with rfl | hr'
          · exact absurd hqseen hseen
          · exact hr'
        obtain ⟨e, he⟩ := ih _ _ hr' hor hlk hseen
        rw [he]
        exact ⟨e, rfl⟩
      · next hqseen =>
        cases hq : lookup q with
        | none => exact ⟨_, rfl⟩
        | some deps' =>
          have hr' : r ∈ qs := by
            rcases List.mem_cons.mp hr with rfl | hr'
            · rw [hq] at hlk; exact Option.noConfusion hlk
            · exact hr'
          have hseen' : r ∉ seen ++ [q] := by
            intro hmem
            rcases List.mem_append.mp hmem with hs | hs
            · exact hseen hs
            · rcases List.mem_singleton.mp hs with rfl
              rw [hq] at hlk; exact Option.noConfusion hlk
          obtain ⟨e, he⟩ := ih _ _ hr' hor hlk hseen'
          rw [he]
          exact ⟨e, rfl⟩

theorem expandDeps_congr (oracle : Oracle) (l1 l2 : DepRef → Option (List DepRef))
    (T : List DepRef) (hagree : ∀ k, k ∉ T → l1 k = l2 k) :
    ∀ (deps seen : List DepRef), T ⊆ seen →
      expandDeps oracle l1 deps seen = expandDeps oracle l2 deps seen := by
  intro deps
  induction deps with
  | nil => intro seen hT; rfl
  | cons r rs ih =>
    intro seen hT
    rw [expandDeps, expandDeps]
    split
    · exact ih seen hT
    · split
      · rw [ih seen hT]
      · next hseen =>
        have hrT : r ∉ T := fun hmem => hseen (hT hmem)
        rw [hagree r hrT, ih (seen ++ [r]) (hT.trans (List.subset_append_left _ _))]

/-! ## Properties of the expansion pass -/

/-- The relation between a pending descriptor and its expanded form: same
identity, kept dependencies are a subset, removed ones are Oracle
satisfied. -/
def ExpandedFrom (oracle : Oracle) (d u : Descriptor) : Prop :=
  u.name = d.name ∧ u.version = d.version ∧ u.dependencies ⊆ d.dependencies ∧
  ∀ r ∈ d.dependencies, r ∈ u.dependencies ∨ oracle r = true

theorem expandPass_seen (oracle : Oracle) (lookup : DepRef → Option (List DepRef)) :
    ∀ (pend : List Descriptor) (seen : List DepRef) (upd : List Descriptor)
      (seen' : List DepRef) (new : List Descriptor),
      expandPass oracle lookup pend seen = .ok (upd, seen', new) →
      seen' = seen ++ new.map Descriptor.key := by
  intro pend
  induction pend with
  | nil =>
    intro seen upd seen' new h
    simp [expandPass] at h
    simp [h.2.1.symm, h.2.2.symm]
  | cons d ds ih =>
    intro seen upd seen' new h
    rw [expandPass] at h
    split at h
    · exact Except.noConfusion h
    · next heq1 =>
      split at h
      · exact Except.noConfusion h
      · next heq2 =>
        simp only [Except.ok.injEq, Prod.mk.injEq] at h
        obtain ⟨hu, hs, hn⟩ := h
        subst hu hs hn
        have h1 := expandDeps_seen oracle lookup _ _ _ _ _ heq1
        have h2 := ih _ _ _ _ heq2
        simp [h1, h2]

theorem expandPass_expanded (oracle : Oracle) (lookup : DepRef → Option (List DepRef)) :
    ∀ (pend : List Descriptor) (seen : List DepRef) (upd : List Descriptor)
      (seen' : List DepRef) (new : List Descriptor),
      expandPass oracle lookup pend seen = .ok (upd, seen', new) →
      List.Forall₂ (ExpandedFrom oracle) pend upd := by
  intro pend
  induction pend with
  | nil =>
    intro seen upd seen' new h
    simp [expandPass] at h
    rw [h.1]
    exact List.Forall₂.nil
  | cons d ds ih =>
    intro seen upd seen' new h
    rw [expandPass] at h
    split at h
    · exact Except.noConfusion h
    · next heq1 =>
      split at h
      · exact Except.noConfusion h
      · next heq2 =>
        simp only [Except.ok.injEq, Prod.mk.injEq] at h
        obtain ⟨hu, hs, hn⟩ := h
        subst hu hs hn
        refine List.Forall₂.cons ?_ (ih _ _ _ _ heq2)
        refine ⟨rfl, rfl, expandDeps_kept_sub oracle lookup _ _ _ _ _ heq1, ?_⟩
        exact expandDeps_mem_kept oracle lookup _ _ _ _ _ heq1

theorem expandPass_new_lookup (oracle : Oracle) (lookup : DepRef → Option (List DepRef)) :
    ∀ (pend : List Descriptor) (seen : List DepRef) (upd : List Descriptor)
      (seen' : List DepRef) (new : List Descriptor),
      expandPass oracle lookup pend seen = .ok (upd, seen', new) →
      ∀ nd ∈ new, lookup nd.key = some nd.dependencies := by
  intro pend
  induction pend with
  | nil =>
    intro seen upd seen' new h nd hnd
    simp [expandPass] at h
    rw [h.2.2] at hnd
    exact absurd hnd (List.not_mem_nil nd)
  | cons d ds ih =>
    intro seen upd seen' new h nd hnd
    rw [expandPass] at h
    split at h
    · exact Except.noConfusion h
    · next heq1 =>
      split at h
      · exact Except.noConfusion h
      · next heq2 =>
        simp only [Except.ok.injEq, Prod.mk.injEq] at h
        obtain ⟨hu, hs, hn⟩ := h
        subst hu hs hn
        rcases List.mem_append.mp hnd with h1 | h2
        · exact expandDeps_new_lookup oracle lookup _ _ _ _ _ heq1 nd h1
        · exact ih _ _ _ _ heq2 nd h2

theorem expandPass_new_fresh (oracle : Oracle) (lookup : DepRef → Option (List DepRef)) :
    ∀ (pend : List Descriptor) (seen : List DepRef) (upd : List Descriptor)
      (seen' : List DepRef) (new : List Descriptor),
      expandPass oracle lookup pend seen = .ok (upd, seen', new) →
      (new.map Descriptor.key).Nodup ∧ ∀ k ∈ new.map Descriptor.key, k ∉ seen := by
  intro pend
  induction pend with
  | nil =>
    intro seen upd seen' new h
    simp [expandPass] at h
    simp [h.2.2]
  | cons d ds ih =>
    intro seen upd seen' new h
    rw [expandPass] at h
    split at h
    · exact Except.noConfusion h
    · next heq1 =>
      split at h
      · exact Except.noConfusion h
      · next heq2 =>
        simp only [Except.ok.injEq, Prod.mk.injEq] at h
        obtain ⟨hu, hs, hn⟩ := h
        subst hu hs hn
        obtain ⟨hnd1, hfresh1⟩ := expandDeps_new_fresh oracle lookup _ _ _ _ _ heq1
        obtain ⟨hnd2, hfresh2⟩ := ih _ _ _ _ heq2
        have hseen1 := expandDeps_seen oracle lookup _ _ _ _ _ heq1
        constructor
        · rw [List.map_append]
          refine List.nodup_append.mpr ⟨hnd1, hnd2, fun k hk1 hk2 => ?_⟩
          have := hfresh2 k hk2
          rw [hseen1] at this
          exact this (List.mem_append_right _ hk1)
        · intro k hk
          rw [List.map_append] at hk
          rcases List.mem_append.mp hk with h1 | h2
          · exact hfresh1 k h1
          · have := hfresh2 k h2
            rw [hseen1] at this
            exact fun hks => this (List.mem_append_left _ hks)

theorem expandPass_error_shape (oracle : Oracle) (lookup : DepRef → Option (List DepRef)) :
    ∀ (pend : List Descriptor) (seen : List DepRef) (e : ResolveError),
      expandPass oracle lookup pend seen = .error e →
      ∃ n v, e = .missingRecipe n v ∧ oracle ⟨n, v⟩ = false ∧
        lookup ⟨n, v⟩ = none ∧ ⟨n, v⟩ ∉ seen := by
  intro pend
  induction pend with
  | nil =>
    intro seen e h
    simp [expandPass] at h
  | cons d ds ih =>
    intro seen e h
    rw [expandPass] at h
    split at h
    · next heq1 =>
      cases h
      exact expandDeps_error_shape oracle lookup _ _ _ heq1
    · next heq1 =>
      split at h
      · next heq2 =>
        cases h
        obtain ⟨n, v, he, ho, hl, hs⟩ := ih _ _ heq2
        have hseen1 := expandDeps_seen oracle lookup _ _ _ _ _ heq1
        rw [hseen1] at hs
        exact ⟨n, v, he, ho, hl, fun hmem => hs (List.mem_append_left _ hmem)⟩
      · exact Except.noConfusion h

theorem expandPass_must_fail (oracle : Oracle) (lookup : DepRef → Option (List DepRef)) :
    ∀ (pend : List Descriptor) (seen : List DepRef) (d : Descriptor) (r : DepRef),
      d ∈ pend → r ∈ d.dependencies → oracle r = false → lookup r = none → r ∉ seen →
      ∃ e, expandPass oracle lookup pend seen = .error e := by
  intro pend
  induction pend with
  | nil =>
    intro seen d r hd
    exact absurd hd (List.not_mem_nil d)
  | cons q qs ih =>
    intro seen d r hd hr hor hlk hseen
    cases h1 : expandDeps oracle lookup q.dependencies seen with
    | error e => exact ⟨e, by simp [expandPass, h1]⟩
    | ok res1 =>
      obtain ⟨kept, seen1, new1⟩ := res1
      have hd' : d ∈ qs := by
        rcases List.mem_cons.mp hd with rfl | hd'
        · exfalso
          obtain ⟨e, he⟩ := expandDeps_must_fail oracle lookup _ _ _ hr hor hlk hseen
          rw [he] at h1
          exact Except.noConfusion h1
        · exact hd'
      have hseen1 : r ∉ seen1 := by
        rw [expandDeps_seen oracle lookup _ _ _ _ _ h1]
        intro hmem
        rcases List.mem_append.mp hmem with hs | hs
        · exact hseen hs
        · obtain ⟨nd, hnd, hkey⟩ := List.mem_map.mp hs
          have := expandDeps_new_lookup oracle lookup _ _ _ _ _ h1 nd hnd
          rw [hkey, hlk] at this
          exact Option.noConfusion this
      obtain ⟨e, he⟩ := ih _ _ _ hd' hr hor hlk hseen1
      exact ⟨e, by simp [expandPass, h1, he]⟩

theorem expandPass_congr (oracle : Oracle) (l1 l2 : DepRef → Option (List DepRef))
    (T : List DepRef) (hagree : ∀ k, k ∉ T → l1 k = l2 k) :
    ∀ (pend : List Descriptor) (seen : List DepRef), T ⊆ seen →
      expandPass oracle l1 pend seen = expandPass oracle l2 pend seen := by
  intro pend
  induction pend with
  | nil => intro seen hT; rfl
  | cons d ds ih =>
    intro seen hT
    have hd := expandDeps_congr oracle l1 l2 T hagree d.dependencies seen hT
    cases h1 : expandDeps oracle l2 d.dependencies seen with
    | error e => simp [expandPass, hd, h1]
    | ok res =>
      obtain ⟨kept, seen1, new1⟩ := res
      have hT1 : T ⊆ seen1 := by
        rw [expandDeps_seen oracle l2 _ _ _ _ _ h1]
        exact hT.trans (List.subset_append_left _ _)
      simp [expandPass, hd, h1, ih seen1 hT1]

theorem step_congr (oracle : Oracle) (l1 l2 : DepRef → Option (List DepRef))
    (T : List DepRef) (hagree : ∀ k, k ∉ T → l1 k = l2 k) (s : RState)
    (hT : T ⊆ s.seen) : step oracle l1 s = step oracle l2 s := by
  unfold step
  rw [expandPass_congr oracle l1 l2 T hagree s.pending s.seen hT]

theorem step_seen (oracle : Oracle) (lookup : DepRef → Option (List DepRef))
    (s s' : RState) (h : step oracle lookup s = .ok s') :
    ∃ ks, s'.seen = s.seen ++ ks := by
  unfold step at h
  split at h
  · exact Except.noConfusion h
  · next upd seen' new heq =>
    cases h
    exact ⟨new.map Descriptor.key, expandPass_seen oracle lookup _ _ _ _ _ heq⟩

theorem resolveLoop_congr (oracle : Oracle) (l1 l2 : DepRef → Option (List DepRef))
    (T : List DepRef) (hagree : ∀ k, k ∉ T → l1 k = l2 k) :
    ∀ (fuel : Nat) (s : RState), T ⊆ s.seen →
      resolveLoop oracle l1 fuel s = resolveLoop oracle l2 fuel s := by
  intro fuel
  induction fuel with
  | zero => intro s hT; rfl
  | succ n ih =>
    intro s hT
    have hstep := step_congr oracle l1 l2 T hagree s hT
    cases h2 : step oracle l2 s with
    | error e => simp [resolveLoop, hstep, h2]
    | ok s' =>
      have hT' : T ⊆ s'.seen := by
        obtain ⟨ks, hks⟩ := step_seen oracle l2 s s' h2
        rw [hks]
        exact hT.trans (List.subset_append_left _ _)
      simp only [resolveLoop, hstep, h2]
      split
      · rfl
      · split
        · rfl
        · exact ih s' hT'

theorem resolve_congr_lookup (fuel : Nat) (oracle : Oracle) (loc1 loc2 : Locator)
    (sp1 sp2 : Option String) (tops : List Descriptor)
    (hagree : ∀ k, ¬ k ∈ tops.map Descriptor.key →
      lookupRecipe loc1 sp1 k = lookupRecipe loc2 sp2 k) :
    resolve fuel oracle loc1 sp1 tops = resolve fuel oracle loc2 sp2 tops := by
  unfold resolve
  exact resolveLoop_congr oracle _ _ (tops.map Descriptor.key) hagree fuel
    ⟨[], tops, tops.map Descriptor.key⟩ (fun k hk => hk)

/-! ## Missing dependencies abort the run -/

theorem resolveLoop_missing (oracle : Oracle) (lookup : DepRef → Option (List DepRef))
    (fuel : Nat) (s : RState) (hfuel : 0 < fuel)
    (d : Descriptor) (r : DepRef) (hd : d ∈ s.pending) (hr : r ∈ d.dependencies)
    (hor : oracle r = false) (hlk : lookup r = none) (hseen : r ∉ s.seen) :
    ∃ n v, resolveLoop oracle lookup fuel s = .error (.missingRecipe n v) ∧
      oracle ⟨n, v⟩ = false ∧ lookup ⟨n, v⟩ = none ∧ ⟨n, v⟩ ∉ s.seen := by
  obtain ⟨m, rfl⟩ : ∃ m, fuel = m + 1 := ⟨fuel - 1, by omega⟩
  obtain ⟨e, he⟩ := expandPass_must_fail oracle lookup s.pending s.seen d r hd hr hor hlk hseen
  obtain ⟨n, v, rfl, ho2, hl2, hs2⟩ := expandPass_error_shape oracle lookup _ _ _ he
  have hne : s.pending.isEmpty = false := by
    cases hpend : s.pending with
    | nil => rw [hpend] at hd; exact absurd hd (List.not_mem_nil d)
    | cons p ps => rfl
  have hstep : step oracle lookup s = .error (.missingRecipe n v) := by
    simp [step, he]
  refine ⟨n, v, ?_, ho2, hl2, hs2⟩
  simp [resolveLoop, hne, hstep]

theorem resolve_missing_dep_aux (fuel : Nat) (oracle : Oracle) (locator : Locator)
    (sp : Option String) (tops : List Descriptor) (t : Descriptor) (r : DepRef)
    (hfuel : 0 < fuel) (ht : t ∈ tops) (hr : r ∈ t.dependencies)
    (hor : oracle r = false) (hlk : lookupRecipe locator sp r = none)
    (hkey : ¬ r ∈ tops.map Descriptor.key) :
    ∃ n v, resolve fuel oracle locator sp tops = .error (.missingRecipe n v) ∧
      oracle ⟨n, v⟩ = false ∧ lookupRecipe locator sp ⟨n, v⟩ = none ∧
      ¬ (⟨n, v⟩ : DepRef) ∈ tops.map Descriptor.key :=
  resolveLoop_missing oracle (lookupRecipe locator sp) fuel
    ⟨[], tops, tops.map Descriptor.key⟩ hfuel t r ht hr hor hlk hkey

/-- Claim C2 (amended): a dependency reference that is not Oracle satisfied, does
not match the identity of any top-level descriptor, and is not found by the
Locator forces the whole call to abort with a MissingRecipeError naming a
reference with those same three properties; no order is returned (the error
carries no partial resolved_order by construction of the result type). -/
theorem resolve_missing_recipe_error (fuel : Nat) (oracle : Oracle) (locator : Locator)
    (sp : Option String) (tops : List Descriptor) (t : Descriptor) (r : DepRef)
    (hfuel : 0 < fuel) (ht : t ∈ tops) (hr : r ∈ t.dependencies)
    (hor : oracle r = false) (hlk : lookupRecipe locator sp r = none)
    (hkey : ¬ r ∈ tops.map Descriptor.key) :
    ∃ n v, resolve fuel oracle locator sp tops = .error (.missingRecipe n v) ∧
      oracle ⟨n, v⟩ = false ∧ lookupRecipe locator sp ⟨n, v⟩ = none ∧
      ¬ (⟨n, v⟩ : DepRef) ∈ tops.map Descriptor.key :=
  resolve_missing_dep_aux fuel oracle locator sp tops t r hfuel ht hr hor hlk hkey

theorem resolve_missing_recipe_error_witness :
    ∃ n v, resolve 4 noOracle noLocator none [⟨"name", "version", [⟨"gzip", "1.4"⟩]⟩]
        = .error (.missingRecipe n v) ∧
      noOracle ⟨n, v⟩ = false ∧ lookupRecipe noLocator none ⟨n, v⟩ = none ∧
      ¬ (⟨n, v⟩ : DepRef) ∈ [(⟨"name", "version", [⟨"gzip", "1.4"⟩]⟩ : Descriptor)].map
          Descriptor.key :=
  resolve_missing_recipe_error 4 noOracle noLocator none
    [⟨"name", "version", [⟨"gzip", "1.4"⟩]⟩] ⟨"name", "version", [⟨"gzip", "1.4"⟩]⟩
    ⟨"gzip", "1.4"⟩ (by decide) (by decide) (by decide) (by decide) (by decide) (by decide)

/-- Claim C6: with no search path the Locator is never consulted (the outcome is
identical for any two Locators), and a dependency reference that is neither
Oracle satisfied nor the identity of a top-level descriptor makes the run
abort with the missing-dependency error. -/
theorem resolve_no_search_path (fuel : Nat) (oracle : Oracle) (l1 l2 : Locator)
    (tops : List Descriptor) :
    (resolve fuel oracle l1 none tops = resolve fuel oracle l2 none tops) ∧
    (∀ t r, 0 < fuel → t ∈ tops → r ∈ t.dependencies → oracle r = false →
      ¬ r ∈ tops.map Descriptor.key →
      ∃ n v, resolve fuel oracle l1 none tops = .error (.missingRecipe n v) ∧
        oracle ⟨n, v⟩ = false ∧ ¬ (⟨n, v⟩ : DepRef) ∈ tops.map Descriptor.key) := by
  constructor
  · exact resolve_congr_lookup fuel oracle l1 l2 none none tops (fun k hk => rfl)
  · intro t r hfuel ht hr hor hkey
    obtain ⟨n, v, h1, h2, h3, h4⟩ :=
      resolve_missing_dep_aux fuel oracle l1 none tops t r hfuel ht hr hor rfl hkey
    exact ⟨n, v, h1, h2, h4⟩

theorem resolve_no_search_path_witness :
    (resolve 4 noOracle noLocator none [⟨"name", "version", [⟨"gzip", "1.4"⟩]⟩]
      = resolve 4 noOracle chainLocator none [⟨"name", "version", [⟨"gzip", "1.4"⟩]⟩]) ∧
    (∃ n v, resolve 4 noOracle noLocator none [⟨"name", "version", [⟨"gzip", "1.4"⟩]⟩]
        = .error (.missingRecipe n v) ∧
      noOracle ⟨n, v⟩ = false ∧
      ¬ (⟨n, v⟩ : DepRef) ∈ [(⟨"name", "version", [⟨"gzip", "1.4"⟩]⟩ : Descriptor)].map
          Descriptor.key) :=
  ⟨(resolve_no_search_path 4 noOracle noLocator chainLocator
      [⟨"name", "version", [⟨"gzip", "1.4"⟩]⟩]).1,
   (resolve_no_search_path 4 noOracle noLocator chainLocator
      [⟨"name", "version", [⟨"gzip", "1.4"⟩]⟩]).2
     ⟨"name", "version", [⟨"gzip", "1.4"⟩]⟩ ⟨"gzip", "1.4"⟩
     (by decide) (by decide) (by decide) (by decide) (by decide)⟩

/-! ## No identity is emitted twice -/

theorem removeKeys_key (ks : List DepRef) (d : Descriptor) :
    (removeKeys ks d).key = d.key := rfl

theorem expanded_keys_eq (oracle : Oracle) :
    ∀ {pend upd : List Descriptor}, List.Forall₂ (ExpandedFrom oracle) pend upd →
      upd.map Descriptor.key = pend.map Descriptor.key := by
  intro pend upd h
  induction h with
  | nil => rfl
  | cons ha hl ih =>
    simp only [List.map_cons, ih, List.cons.injEq, and_true]
    obtain ⟨hn, hv, _⟩ := ha
    simp [Descriptor.key, hn, hv]

theorem drainOnce_keys_perm (p : List Descriptor) :
    ((drainOnce p).1.map Descriptor.key ++ (drainOnce p).2.map Descriptor.key).Perm
      (p.map Descriptor.key) := by
  unfold drainOnce
  simp only [List.map_map]
  have hmapeq : ∀ (l : List Descriptor),
      l.map (Descriptor.key ∘ removeKeys ((p.filter (fun d => d.dependencies.isEmpty)).map
        Descriptor.key)) = l.map Descriptor.key := by
    intro l
    exact List.map_congr_left (fun d _ => removeKeys_key _ d)
  rw [hmapeq]
  rw [← List.map_append]
  exact (List.filter_append_perm _ p).map Descriptor.key

def stateKeys (s : RState) : List DepRef :=
  s.resolved.map Descriptor.key ++ s.pending.map Descriptor.key

def KeysInv (s : RState) : Prop :=
  (stateKeys s).Nodup ∧ ∀ k ∈ stateKeys s, k ∈ s.seen

theorem step_keysInv (oracle : Oracle) (lookup : DepRef → Option (List DepRef))
    (s s' : RState) (hinv : KeysInv s) (h : step oracle lookup s = .ok s') :
    KeysInv s' := by
  obtain ⟨hnd, hmem⟩ := hinv
  unfold step at h
  split at h
  · exact Except.noConfusion h
  · next upd seen' new heq =>
    cases h
    have hupd := expanded_keys_eq oracle (expandPass_expanded oracle lookup _ _ _ _ _ heq)
    obtain ⟨hndnew, hfresh⟩ := expandPass_new_fresh oracle lookup _ _ _ _ _ heq
    have hseen' := expandPass_seen oracle lookup _ _ _ _ _ heq
    have hperm : (stateKeys ⟨s.resolved ++ (drainOnce (upd ++ new)).1,
        (drainOnce (upd ++ new)).2, seen'⟩).Perm
        ((s.resolved.map Descriptor.key ++ s.pending.map Descriptor.key)
          ++ new.map Descriptor.key) := by
      have h1 : stateKeys ⟨s.resolved ++ (drainOnce (upd ++ new)).1,
          (drainOnce (upd ++ new)).2, seen'⟩
          = s.resolved.map Descriptor.key ++ ((drainOnce (upd ++ new)).1.map Descriptor.key
            ++ (drainOnce (upd ++ new)).2.map Descriptor.key) := by
        unfold stateKeys
        simp [List.map_append, List.append_assoc]
      rw [h1]
      have h2 := List.Perm.append_left (s.resolved.map Descriptor.key)
        (drainOnce_keys_perm (upd ++ new))
      have h3 : (upd ++ new).map Descriptor.key
          = s.pending.map Descriptor.key ++ new.map Descriptor.key := by
        rw [List.map_append, hupd]
      rw [h3] at h2
      simpa [List.append_assoc] using h2
    constructor
    · refine hperm.symm.nodup ?_
      refine List.nodup_append.mpr ⟨hnd, hndnew, fun k hk1 hk2 => ?_⟩
      exact hfresh k hk2 (hmem k hk1)
    · intro k hk
      have := hperm.mem_iff.mp hk
      rcases List.mem_append.mp this with h1 | h2
      · show k ∈ seen'
        rw [hseen']
        exact List.mem_append_left _ (hmem k h1)
      · show k ∈ seen'
        rw [hseen']
        exact List.mem_append_right _ h2

theorem resolveLoop_nodup (oracle : Oracle) (lookup : DepRef → Option (List DepRef)) :
    ∀ (fuel : Nat) (s : RState) (order : List Descriptor), KeysInv s →
      resolveLoop oracle lookup fuel s = .ok order →
      (order.map Descriptor.key).Nodup := by
  intro fuel
  induction fuel with
  | zero =>
    intro s order hinv h
    rw [resolveLoop] at h
    split at h
    · cases h
      exact (List.nodup_append.mp hinv.1).1
    · exact Except.noConfusion h
  | succ n ih =>
    intro s order hinv h
    rw [resolveLoop] at h
    split at h
    · cases h
      exact (List.nodup_append.mp hinv.1).1
    · split at h
      · exact Except.noConfusion h
      · next s' hstep =>
        split at h
        · split at h
          · cases h
            exact (List.nodup_append.mp hinv.1).1
          · exact Except.noConfusion h
        · exact ih s' order (step_keysInv oracle lookup s s' hinv hstep) h

/-- Claim C3 (amended): when the top-level descriptors have pairwise distinct
(name, version) identities, no identity appears twice in the returned
order; and the diamond input (A needs B and C, both need D) collapses to a
four-element order with D first, then B and C, then A. -/
theorem resolve_no_duplicate_identities (fuel : Nat) (oracle : Oracle) (locator : Locator)
    (sp : Option String) (tops : List Descriptor) (order : List Descriptor)
    (hnd : (tops.map Descriptor.key).Nodup)
    (h : resolve fuel oracle locator sp tops = .ok order) :
    (order.map Descriptor.key).Nodup ∧
    resolve 10 noOracle diamondLocator (some "p") [⟨"A", "1", [⟨"B", "1"⟩, ⟨"C", "1"⟩]⟩]
      = .ok [⟨"D", "1", []⟩, ⟨"B", "1", []⟩, ⟨"C", "1", []⟩, ⟨"A", "1", []⟩] := by
  constructor
  · refine resolveLoop_nodup oracle (lookupRecipe locator sp) fuel _ order ⟨?_, ?_⟩ h
    · simpa [stateKeys] using hnd
    · intro k hk
      simpa [stateKeys] using hk
  · decide

theorem resolve_no_duplicate_identities_witness :
    (([(⟨"D", "1", []⟩ : Descriptor), ⟨"B", "1", []⟩, ⟨"C", "1", []⟩,
        ⟨"A", "1", []⟩].map Descriptor.key).Nodup) ∧
    resolve 10 noOracle diamondLocator (some "p") [⟨"A", "1", [⟨"B", "1"⟩, ⟨"C", "1"⟩]⟩]
      = .ok [⟨"D", "1", []⟩, ⟨"B", "1", []⟩, ⟨"C", "1", []⟩, ⟨"A", "1", []⟩] :=
  resolve_no_duplicate_identities 10 noOracle diamondLocator (some "p")
    [⟨"A", "1", [⟨"B", "1"⟩, ⟨"C", "1"⟩]⟩]
    [⟨"D", "1", []⟩, ⟨"B", "1", []⟩, ⟨"C", "1", []⟩, ⟨"A", "1", []⟩]
    (by decide) (by decide)

/-! ## Every emitted descriptor has fully drained -/

theorem drainOnce_drained_empty (p : List Descriptor) :
    ∀ d ∈ (drainOnce p).1, d.dependencies = [] := by
  intro d hd
  unfold drainOnce at hd
  simp only [List.mem_filter] at hd
  exact List.isEmpty_iff.mp hd.2

theorem resolveLoop_all_empty (oracle : Oracle) (lookup : DepRef → Option (List DepRef)) :
    ∀ (fuel : Nat) (s : RState) (order : List Descriptor),
      (∀ d ∈ s.resolved, d.dependencies = []) →
      resolveLoop oracle lookup fuel s = .ok order →
      ∀ d ∈ order, d.dependencies = [] := by
  intro fuel
  induction fuel with
  | zero =>
    intro s order hres h
    rw [resolveLoop] at h
    split at h
    · cases h; exact hres
    · exact Except.noConfusion h
  | succ n ih =>
    intro s order hres h
    rw [resolveLoop] at h
    split at h
    · cases h; exact hres
    · split at h
      · exact Except.noConfusion h
      · next s' hstep =>
        split at h
        · split at h
          · cases h; exact hres
          · exact Except.noConfusion h
        · refine ih s' order ?_ h
          unfold step at hstep
          split at hstep
          · exact Except.noConfusion hstep
          · next upd seen' new heq =>
            cases hstep
            intro d hd
            rcases List.mem_append.mp hd with h1 | h2
            · exact hres d h1
            · exact drainOnce_drained_empty (upd ++ new) d h2

/-- Claim C5: a dependency reference whose identity matches another descriptor in
the top-level input is resolved without consulting the Locator (any two
Locators agreeing outside the top-level identities yield identical
results), every descriptor in a returned order has drained to an empty
dependency list, and the robot.py scenario with gzip listed as a sibling
top-level package resolves without duplication and without a search path. -/
theorem resolve_in_set_dependency (fuel : Nat) (oracle : Oracle) (l1 l2 : Locator)
    (sp : Option String) (tops order : List Descriptor)
    (hagree : ∀ p k, ¬ k ∈ tops.map Descriptor.key → l1 p k = l2 p k)
    (h : resolve fuel oracle l1 sp tops = .ok order) :
    resolve fuel oracle l1 sp tops = resolve fuel oracle l2 sp tops ∧
    (∀ d ∈ order, d.dependencies = []) ∧
    resolve 4 noOracle noLocator none
        [⟨"name", "version", [⟨"gzip", "1.4"⟩]⟩, ⟨"gzip", "1.4", []⟩]
      = .ok [⟨"gzip", "1.4", []⟩, ⟨"name", "version", []⟩] := by
  refine ⟨?_, ?_, by decide⟩
  · refine resolve_congr_lookup fuel oracle l1 l2 sp sp tops (fun k hk => ?_)
    cases sp with
    | none => rfl
    | some p => exact hagree p k hk
  · exact resolveLoop_all_empty oracle (lookupRecipe l1 sp) fuel
      ⟨[], tops, tops.map Descriptor.key⟩ order (by intro d hd; cases hd) h

theorem resolve_in_set_dependency_witness :
    resolve 4 noOracle noLocator none
        [⟨"name", "version", [⟨"gzip", "1.4"⟩]⟩, ⟨"gzip", "1.4", []⟩]
      = resolve 4 noOracle
          (fun _ r => if r = ⟨"gzip", "1.4"⟩ then some [⟨"bogus", "9"⟩] else none) none
          [⟨"name", "version", [⟨"gzip", "1.4"⟩]⟩, ⟨"gzip", "1.4", []⟩] ∧
    (∀ d ∈ [(⟨"gzip", "1.4", []⟩ : Descriptor), ⟨"name", "version", []⟩],
      d.dependencies = []) ∧
    resolve 4 noOracle noLocator none
        [⟨"name", "version", [⟨"gzip", "1.4"⟩]⟩, ⟨"gzip", "1.4", []⟩]
      = .ok [⟨"gzip", "1.4", []⟩, ⟨"name", "version", []⟩] :=
  resolve_in_set_dependency 4 noOracle noLocator
    (fun _ r => if r = ⟨"gzip", "1.4"⟩ then some [⟨"bogus", "9"⟩] else none) none
    [⟨"name", "version", [⟨"gzip", "1.4"⟩]⟩, ⟨"gzip", "1.4", []⟩]
    [⟨"gzip", "1.4", []⟩, ⟨"name", "version", []⟩]
    (fun p k hk => by
      have hne : k ≠ (⟨"gzip", "1.4"⟩ : DepRef) := by
        intro he
        subst he
        exact hk (by decide)
      simp [hne, noLocator])
    (by decide)

/-! ## Dependencies precede their dependents in the returned order -/

/-- Each entry of an annotated order is accounted for: every reference in
its original dependency list is Oracle satisfied or the identity of a
strictly earlier entry (done collects the keys emitted before it). -/
def ordAccounted (oracle : Oracle) : List DepRef → List (Descriptor × List DepRef) → Prop
  | _, [] => True
  | done, q :: rest =>
    (∀ r ∈ q.2, oracle r = true ∨ r ∈ done) ∧
    ordAccounted oracle (done ++ [q.1.key]) rest

theorem ordAccounted_mono (oracle : Oracle) :
    ∀ (l : List (Descriptor × List DepRef)) (done done' : List DepRef),
      done ⊆ done' → ordAccounted oracle done l → ordAccounted oracle done' l := by
  intro l
  induction l with
  | nil => intro _ _ _ _; trivial
  | cons q rest ih =>
    intro done done' hsub h
    obtain ⟨h1, h2⟩ := h
    refine ⟨fun r hr => ?_, ih _ _ (List.append_subset.mpr
      ⟨hsub.trans (List.subset_append_left _ _), List.subset_append_right _ _⟩) h2⟩
    rcases h1 r hr with ho | hd
    · exact Or.inl ho
    · exact Or.inr (hsub hd)

theorem ordAccounted_of_forall (oracle : Oracle) :
    ∀ (l : List (Descriptor × List DepRef)) (done : List DepRef),
      (∀ q ∈ l, ∀ r ∈ q.2, oracle r = true ∨ r ∈ done) →
      ordAccounted oracle done l := by
  intro l
  induction l with
  | nil => intro _ _; trivial
  | cons q rest ih =>
    intro done h
    refine ⟨h q (List.mem_cons_self _ _), ?_⟩
    refine ordAccounted_mono oracle rest done _ (List.subset_append_left _ _) ?_
    exact ih done (fun p hp => h p (List.mem_cons_of_mem _ hp))

theorem ordAccounted_append (oracle : Oracle) :
    ∀ (xs ys : List (Descriptor × List DepRef)) (done : List DepRef),
      ordAccounted oracle done xs →
      ordAccounted oracle (done ++ xs.map (fun q => q.1.key)) ys →
      ordAccounted oracle done (xs ++ ys) := by
  intro xs
  induction xs with
  | nil =>
    intro ys done _ hys
    simpa using hys
  | cons q rest ih =>
    intro ys done hx hys
    obtain ⟨h1, h2⟩ := hx
    refine ⟨h1, ?_⟩
    refine ih ys (done ++ [q.1.key]) h2 ?_
    simpa [List.append_assoc] using hys

/-- An entry is a top-level descriptor or a located recipe: its identity and
original dependency list come from the input set or from the Locator. -/
def SrcOK (lookup : DepRef → Option (List DepRef)) (tops : List Descriptor)
    (q : Descriptor × List DepRef) : Prop :=
  (∃ t ∈ tops, q.1.key = t.key ∧ q.2 = t.dependencies) ∨ lookup q.1.key = some q.2

theorem forall2_mem_left {α β : Type} {R : α → β → Prop} :
    ∀ {l : List α} {l' : List β}, List.Forall₂ R l l' → ∀ a ∈ l, ∃ b ∈ l', R a b := by
  intro l l' h
  induction h with
  | nil => intro a ha; exact absurd ha (List.not_mem_nil a)
  | cons hab hrest ih =>
    intro a ha
    rcases List.mem_cons.mp ha with rfl | ha'
    · exact ⟨_, List.mem_cons_self _ _, hab⟩
    · obtain ⟨b, hb, hR⟩ := ih a ha'
      exact ⟨b, List.mem_cons_of_mem _ hb, hR⟩

theorem forall2_mem_right {α β : Type} {R : α → β → Prop} :
    ∀ {l : List α} {l' : List β}, List.Forall₂ R l l' → ∀ b ∈ l', ∃ a ∈ l, R a b := by
  intro l l' h
  induction h with
  | nil => intro b hb; exact absurd hb (List.not_mem_nil b)
  | cons hab hrest ih =>
    intro b hb
    rcases List.mem_cons.mp hb with rfl | hb'
    · exact ⟨_, List.mem_cons_self _ _, hab⟩
    · obtain ⟨a, ha, hR⟩ := ih b hb'
      exact ⟨a, List.mem_cons_of_mem _ ha, hR⟩

/-- The pointwise relation between a ghost-annotated pending entry and its
expanded form. -/
def GhostStep (oracle : Oracle) (q q' : Descriptor × List DepRef) : Prop :=
  q'.1.key = q.1.key ∧ q'.2 = q.2 ∧ q'.1.dependencies ⊆ q.1.dependencies ∧
  ∀ r ∈ q.1.dependencies, r ∈ q'.1.dependencies ∨ oracle r = true

theorem expand_ghost (oracle : Oracle) :
    ∀ (pp : List (Descriptor × List DepRef)) (upd : List Descriptor),
      List.Forall₂ (ExpandedFrom oracle) (pp.map Prod.fst) upd →
      ∃ pp' : List (Descriptor × List DepRef), pp'.map Prod.fst = upd ∧
        List.Forall₂ (GhostStep oracle) pp pp' := by
  intro pp
  induction pp with
  | nil =>
    intro upd h
    cases h
    exact ⟨[], rfl, List.Forall₂.nil⟩
  | cons q rest ih =>
    intro upd h
    cases h with
    | cons hq hrest =>
      next u upd' =>
        obtain ⟨pp', hmap, hF⟩ := ih upd' hrest
        refine ⟨(u, q.2) :: pp', by simp [hmap], ?_⟩
        refine List.Forall₂.cons ?_ hF
        obtain ⟨hn, hv, hsub, hmem⟩ := hq
        exact ⟨by simp [Descriptor.key, hn, hv], rfl, hsub, hmem⟩

/-- The pending-entry property: the current dependency list refines the
original one, and every original reference is still pending, Oracle
satisfied, or already emitted. -/
def PendProp (oracle : Oracle) (resolved : List Descriptor)
    (q : Descriptor × List DepRef) : Prop :=
  q.1.dependencies ⊆ q.2 ∧
  ∀ r ∈ q.2, r ∈ q.1.dependencies ∨ oracle r = true ∨ r ∈ resolved.map Descriptor.key

theorem SrcOK_congr (lookup : DepRef → Option (List DepRef)) (tops : List Descriptor)
    (q q' : Descriptor × List DepRef) (hkey : q'.1.key = q.1.key) (hsnd : q'.2 = q.2)
    (h : SrcOK lookup tops q) : SrcOK lookup tops q' := by
  unfold SrcOK at h ⊢
  rw [hkey, hsnd]
  exact h

/-- The loop invariant for the ordering theorem: the resolved prefix and the
pending set, annotated with the original dependency list of every entry. -/
structure LoopInv (oracle : Oracle) (lookup : DepRef → Option (List DepRef))
    (tops : List Descriptor) (s : RState)
    (pr pp : List (Descriptor × List DepRef)) : Prop where
  hres : pr.map Prod.fst = s.resolved
  hpend : pp.map Prod.fst = s.pending
  hord : ordAccounted oracle [] pr
  hpendOK : ∀ q ∈ pp, PendProp oracle s.resolved q
  hsrc : ∀ q ∈ pr ++ pp, SrcOK lookup tops q
  htop : ∀ t ∈ tops, ∃ q ∈ pr ++ pp, q.1.key = t.key ∧ q.2 = t.dependencies

theorem drainOnce_fst_ghost (l : List (Descriptor × List DepRef)) :
    (drainOnce (l.map Prod.fst)).1
      = (l.filter (fun q => q.1.dependencies.isEmpty)).map Prod.fst :=
  List.filter_map Prod.fst l

theorem drainOnce_snd_ghost (l : List (Descriptor × List DepRef)) :
    (drainOnce (l.map Prod.fst)).2
      = ((l.filter (fun q => !q.1.dependencies.isEmpty)).map
          (fun q => (removeKeys ((l.filter (fun q => q.1.dependencies.isEmpty)).map
            (fun q => q.1.key)) q.1, q.2))).map Prod.fst := by
  show ((l.map Prod.fst).filter (fun (d : Descriptor) => !d.dependencies.isEmpty)).map
      (removeKeys (((l.map Prod.fst).filter
        (fun (d : Descriptor) => d.dependencies.isEmpty)).map Descriptor.key)) = _
  simp only [List.filter_map, List.map_map]
  rfl

theorem step_loopInv (oracle : Oracle) (lookup : DepRef → Option (List DepRef))
    (tops : List Descriptor) (s s' : RState)
    (pr pp : List (Descriptor × List DepRef))
    (hinv : LoopInv oracle lookup tops s pr pp)
    (h : step oracle lookup s = .ok s') :
    ∃ pr' pp', LoopInv oracle lookup tops s' pr' pp' := by
  obtain ⟨hres, hpend, hord, hpendOK, hsrc, htop⟩ := hinv
  unfold step at h
  split at h
  · exact Except.noConfusion h
  · next upd seen' new heq =>
    cases h
    have hF : List.Forall₂ (ExpandedFrom oracle) (pp.map Prod.fst) upd := by
      rw [hpend]
      exact expandPass_expanded oracle lookup _ _ _ _ _ heq
    obtain ⟨ppU, hppU, hG⟩ := expand_ghost oracle pp upd hF
    have hnewlk := expandPass_new_lookup oracle lookup _ _ _ _ _ heq
    set ppNew : List (Descriptor × List DepRef)
      := new.map (fun nd => (nd, nd.dependencies)) with hppNewDef
    set pp2 := ppU ++ ppNew with hpp2Def
    have hpp2 : pp2.map Prod.fst = upd ++ new := by
      rw [hpp2Def, List.map_append, hppU, hppNewDef, List.map_map]
      show upd ++ new.map (fun nd => nd) = upd ++ new
      rw [List.map_id' new]
    -- every entry of the expanded pending set satisfies PendProp and SrcOK
    have hpend2OK : ∀ q ∈ pp2, PendProp oracle s.resolved q := by
      intro q hq
      rcases List.mem_append.mp hq with hU | hN
      · obtain ⟨q₀, hq₀, hGq⟩ := forall2_mem_right hG q hU
        obtain ⟨hkey, hsnd, hsub, hmem⟩ := hGq
        obtain ⟨hsub₀, hacc₀⟩ := hpendOK q₀ hq₀
        constructor
        · rw [hsnd]
          exact hsub.trans hsub₀
        · intro r hr
          rw [hsnd] at hr
          rcases hacc₀ r hr with hd | ho | hres'
          · rcases hmem r hd with hd' | ho'
            · exact Or.inl hd'
            · exact Or.inr (Or.inl ho')
          · exact Or.inr (Or.inl ho)
          · exact Or.inr (Or.inr hres')
      · obtain ⟨nd, hnd, rfl⟩ := List.mem_map.mp hN
        exact ⟨fun r hr => hr, fun r hr => Or.inl hr⟩
    have hsrc2 : ∀ q ∈ pp2, SrcOK lookup tops q := by
      intro q hq
      rcases List.mem_append.mp hq with hU | hN
      · obtain ⟨q₀, hq₀, hGq⟩ := forall2_mem_right hG q hU
        exact SrcOK_congr lookup tops q₀ q hGq.1 hGq.2.1
          (hsrc q₀ (List.mem_append_right _ hq₀))
      · obtain ⟨nd, hnd, rfl⟩ := List.mem_map.mp hN
        exact Or.inr (hnewlk nd hnd)
    have htop2 : ∀ q ∈ pp, ∃ q' ∈ pp2, q'.1.key = q.1.key ∧ q'.2 = q.2 := by
      intro q hq
      obtain ⟨q', hq', hGq⟩ := forall2_mem_left hG q hq
      exact ⟨q', List.mem_append_left _ hq', hGq.1, hGq.2.1⟩
    -- the drain pass on the ghost-annotated entries
    rw [← hpp2]
    set dK := (pp2.filter (fun q => q.1.dependencies.isEmpty)).map (fun q => q.1.key)
      with hdKDef
    set prD := pp2.filter (fun q => q.1.dependencies.isEmpty) with hprDDef
    set ppR := (pp2.filter (fun q => !q.1.dependencies.isEmpty)).map
      (fun q => (removeKeys dK q.1, q.2)) with hppRDef
    have hdr1 : (drainOnce (pp2.map Prod.fst)).1 = prD.map Prod.fst :=
      drainOnce_fst_ghost pp2
    have hdr2 : (drainOnce (pp2.map Prod.fst)).2 = ppR.map Prod.fst :=
      drainOnce_snd_ghost pp2
    have hdrk : (drainOnce (pp2.map Prod.fst)).1.map Descriptor.key = dK := by
      rw [hdr1, List.map_map]
      rfl
    have hdrmem : ∀ q ∈ pp2, q ∈ prD ∨ ∃ q' ∈ ppR, q'.1.key = q.1.key ∧ q'.2 = q.2 := by
      intro q hq
      cases hE : q.1.dependencies.isEmpty with
      | true => exact Or.inl (List.mem_filter.mpr ⟨hq, hE⟩)
      | false =>
        refine Or.inr ⟨(removeKeys dK q.1, q.2), ?_, removeKeys_key dK q.1, rfl⟩
        rw [hppRDef]
        exact List.mem_map.mpr ⟨q, List.mem_filter.mpr ⟨hq, by simp [hE]⟩, rfl⟩
    refine ⟨pr ++ prD, ppR, ?_, ?_, ?_, ?_, ?_, ?_⟩
    · rw [List.map_append, hres, hdr1]
    · rw [hdr2]
    · refine ordAccounted_append oracle pr prD [] hord ?_
      refine ordAccounted_of_forall oracle prD _ ?_
      intro q hq r hr
      have hq2 : q ∈ pp2 := List.mem_of_mem_filter hq
      have hE : q.1.dependencies = [] :=
        List.isEmpty_iff.mp (by simpa using (List.mem_filter.mp hq).2)
      obtain ⟨hsub, hacc⟩ := hpend2OK q hq2
      rcases hacc r hr with hd | ho | hres'
      · rw [hE] at hd
        exact absurd hd (List.not_mem_nil r)
      · exact Or.inl ho
      · refine Or.inr ?_
        have : pr.map (fun q => q.1.key) = s.resolved.map Descriptor.key := by
          rw [← hres, List.map_map]
          rfl
        simpa [this] using hres'
    · intro q' hq'
      rw [hppRDef] at hq'
      obtain ⟨q, hqf, rfl⟩ := List.mem_map.mp hq'
      have hq2 : q ∈ pp2 := List.mem_of_mem_filter hqf
      obtain ⟨hsub, hacc⟩ := hpend2OK q hq2
      constructor
      · show (removeKeys dK q.1).dependencies ⊆ q.2
        unfold removeKeys
        exact (List.filter_subset' _).trans hsub
      · intro r hr
        rcases hacc r hr with hd | ho | hres'
        · by_cases hdk : r ∈ dK
          · refine Or.inr (Or.inr ?_)
            rw [List.map_append]
            refine List.mem_append_right _ ?_
            rw [hdrk]
            exact hdk
          · refine Or.inl ?_
            show r ∈ (removeKeys dK q.1).dependencies
            unfold removeKeys
            exact List.mem_filter.mpr ⟨hd, decide_eq_true hdk⟩
        · exact Or.inr (Or.inl ho)
        · refine Or.inr (Or.inr ?_)
          rw [List.map_append]
          exact List.mem_append_left _ hres'
    · intro q hq
      rcases List.mem_append.mp hq with hL | hR
      · rcases List.mem_append.mp hL with hpr | hpD
        · exact hsrc q (List.mem_append_left _ hpr)
        · exact hsrc2 q (List.mem_of_mem_filter hpD)
      · rw [hppRDef] at hR
        obtain ⟨q₀, hq₀f, rfl⟩ := List.mem_map.mp hR
        have hq₀2 : q₀ ∈ pp2 := List.mem_of_mem_filter hq₀f
        exact SrcOK_congr lookup tops q₀ _ (removeKeys_key dK q₀.1) rfl (hsrc2 q₀ hq₀2)
    · intro t ht
      obtain ⟨q, hq, hkey, hsnd⟩ := htop t ht
      rcases List.mem_append.mp hq with hpr | hpp
      · exact ⟨q, List.mem_append_left _ (List.mem_append_left _ hpr), hkey, hsnd⟩
      · obtain ⟨q', hq', hk', hs'⟩ := htop2 q hpp
        rcases hdrmem q' hq' with hD | ⟨q'', hq'', hk'', hs''⟩
        · exact ⟨q', List.mem_append_left _ (List.mem_append_right _ hD),
            hk'.trans hkey, hs'.trans hsnd⟩
        · exact ⟨q'', List.mem_append_right _ hq'',
            (hk''.trans hk').trans hkey, (hs''.trans hs').trans hsnd⟩

theorem loopInv_final (oracle : Oracle) (lookup : DepRef → Option (List DepRef))
    (tops : List Descriptor) (s : RState) (pr pp : List (Descriptor × List DepRef))
    (hinv : LoopInv oracle lookup tops s pr pp) (hp : s.pending = []) :
    ∃ pairs : List (Descriptor × List DepRef),
      pairs.map Prod.fst = s.resolved ∧ ordAccounted oracle [] pairs ∧
      (∀ t ∈ tops, ∃ q ∈ pairs, q.1.key = t.key ∧ q.2 = t.dependencies) ∧
      (∀ q ∈ pairs, SrcOK lookup tops q) := by
  have hpp : pp = [] := by
    have h1 := hinv.hpend
    rw [hp] at h1
    exact List.map_eq_nil_iff.mp h1
  subst hpp
  exact ⟨pr, hinv.hres, hinv.hord, by simpa using hinv.htop, by simpa using hinv.hsrc⟩

theorem resolveLoop_ordered (oracle : Oracle) (lookup : DepRef → Option (List DepRef))
    (tops : List Descriptor) :
    ∀ (fuel : Nat) (s : RState) (pr pp : List (Descriptor × List DepRef))
      (order : List Descriptor),
      LoopInv oracle lookup tops s pr pp →
      resolveLoop oracle lookup fuel s = .ok order →
      ∃ pairs : List (Descriptor × List DepRef),
        pairs.map Prod.fst = order ∧ ordAccounted oracle [] pairs ∧
        (∀ t ∈ tops, ∃ q ∈ pairs, q.1.key = t.key ∧ q.2 = t.dependencies) ∧
        (∀ q ∈ pairs, SrcOK lookup tops q) := by
  intro fuel
  induction fuel with
  | zero =>
    intro s pr pp order hinv h
    rw [resolveLoop] at h
    split at h
    · next hp =>
      cases h
      exact loopInv_final oracle lookup tops s pr pp hinv (List.isEmpty_iff.mp hp)
    · exact Except.noConfusion h
  | succ n ih =>
    intro s pr pp order hinv h
    rw [resolveLoop] at h
    split at h
    · next hp =>
      cases h
      exact loopInv_final oracle lookup tops s pr pp hinv (List.isEmpty_iff.mp hp)
    · split at h
      · exact Except.noConfusion h
      · next s' hstep =>
        split at h
        · split at h
          · next hnil =>
            cases h
            exact loopInv_final oracle lookup tops s pr pp hinv hnil
          · exact Except.noConfusion h
        · obtain ⟨pr', pp', hinv'⟩ :=
            step_loopInv oracle lookup tops s s' pr pp hinv hstep
          exact ih s' pr' pp' order hinv' h

/-- Claim C1 (amended): whenever resolve returns an order, the order admits an
annotation of every entry with its original dependency list (taken from the
input set for top-level descriptors, from the Locator for expanded recipes)
such that every original dependency of an entry is Oracle satisfied or
appears strictly earlier, and every top-level descriptor appears; the
linear chain A needs B, B needs C resolves to [C, B, A]. -/
theorem resolve_topological_order (fuel : Nat) (oracle : Oracle) (locator : Locator)
    (sp : Option String) (tops order : List Descriptor)
    (h : resolve fuel oracle locator sp tops = .ok order) :
    (∃ pairs : List (Descriptor × List DepRef),
      pairs.map Prod.fst = order ∧ ordAccounted oracle [] pairs ∧
      (∀ t ∈ tops, ∃ q ∈ pairs, q.1.key = t.key ∧ q.2 = t.dependencies) ∧
      (∀ q ∈ pairs, SrcOK (lookupRecipe locator sp) tops q)) ∧
    resolve 10 noOracle chainLocator (some "p") [⟨"A", "1", [⟨"B", "1"⟩]⟩]
      = .ok [⟨"C", "1", []⟩, ⟨"B", "1", []⟩, ⟨"A", "1", []⟩] := by
  refine ⟨?_, by decide⟩
  refine resolveLoop_ordered oracle (lookupRecipe locator sp) tops fuel
    ⟨[], tops, tops.map Descriptor.key⟩ [] (tops.map (fun t => (t, t.dependencies)))
    order ⟨rfl, ?_, trivial, ?_, ?_, ?_⟩ h
  · rw [List.map_map]
    exact List.map_id' tops
  · intro q hq
    obtain ⟨t, ht, rfl⟩ := List.mem_map.mp hq
    exact ⟨fun r hr => hr, fun r hr => Or.inl hr⟩
  · intro q hq
    simp only [List.nil_append] at hq
    obtain ⟨t, ht, rfl⟩ := List.mem_map.mp hq
    exact Or.inl ⟨t, ht, rfl, rfl⟩
  · intro t ht
    refine ⟨(t, t.dependencies), ?_, rfl, rfl⟩
    simp only [List.nil_append]
    exact List.mem_map.mpr ⟨t, ht, rfl⟩

theorem resolve_topological_order_witness :
    (∃ pairs : List (Descriptor × List DepRef),
      pairs.map Prod.fst = [(⟨"C", "1", []⟩ : Descriptor), ⟨"B", "1", []⟩, ⟨"A", "1", []⟩] ∧
      ordAccounted noOracle [] pairs ∧
      (∀ t ∈ [(⟨"A", "1", [⟨"B", "1"⟩]⟩ : Descriptor)],
        ∃ q ∈ pairs, q.1.key = t.key ∧ q.2 = t.dependencies) ∧
      (∀ q ∈ pairs, SrcOK (lookupRecipe chainLocator (some "p"))
        [(⟨"A", "1", [⟨"B", "1"⟩]⟩ : Descriptor)] q)) ∧
    resolve 10 noOracle chainLocator (some "p") [⟨"A", "1", [⟨"B", "1"⟩]⟩]
      = .ok [⟨"C", "1", []⟩, ⟨"B", "1", []⟩, ⟨"A", "1", []⟩] :=
  resolve_topological_order 10 noOracle chainLocator (some "p")
    [⟨"A", "1", [⟨"B", "1"⟩]⟩] [⟨"C", "1", []⟩, ⟨"B", "1", []⟩, ⟨"A", "1", []⟩]
    (by decide)
